import Mathlib

/-!
Verification of the RMTC core (smt/methods/rmtc.py): the count derivations of
`_initialize`, the dof-to-coefficient operator assembly of `_compute_dof2coeff`,
and the basis-evaluation operator of `_compute_jac_raw`.

The Python file delegates the combinatorial kernels to the compiled library
`RMTClib` (compute_coeff2nodal, compute_uniq2elem, compute_full_from_block,
compute_jac), whose source is not part of the repository snapshot; those
kernels are modelled here from the specification, as noted on each definition.
Everything else is translated directly from rmtc.py.
-/

namespace RMTC

/-- Shape of a stored 2-D numpy array: number of rows and of columns. -/
structure AShape where
  rows : ℕ
  cols : ℕ
deriving DecidableEq

/-- The training data as read by `_initialize`: the method only accesses
array shapes (`.shape[0]` and `.shape[1]`), never array values.
`xt` is `training_points[None][0][0]`, `yt` is `training_points[None][0][1]`,
and `extraRows` holds `training_points[None][kx][0].shape[0]` for the
remaining keys `kx`. -/
structure TrainingPoints where
  xt : AShape
  yt : AShape
  extraRows : List ℕ
deriving DecidableEq

/-- An option value as accepted by `_initialize`: either a single scalar
(an `int`/`float`) or an array/list. -/
inductive OptVal (α : Type) where
  | scalar (v : α)
  | arr (l : List α)
deriving DecidableEq

/-- The canonicalization `_initialize` performs on the options `smoothness`
and `num_elements`: a scalar is replicated into a length-`nx` list
(`[options[name]] * nx` followed by `np.atleast_1d`); an array is kept. -/
def OptVal.canon {α : Type} (nx : ℕ) : OptVal α → List α
  | .scalar v => List.replicate nx v
  | .arr l => l

/-- The two options `_initialize` canonicalizes. -/
structure Options where
  num_elements : OptVal ℕ
  smoothness : OptVal ℚ

/-- The `num` dictionary built by `_initialize`. -/
structure Num where
  x : ℕ
  y : ℕ
  elem_list : List ℕ
  elem : ℕ
  term_list : List ℕ
  term : ℕ
  uniq_list : List ℕ
  uniq : ℕ
  t : ℕ
  coeff : ℕ
  support : ℕ
  dof : ℕ
deriving DecidableEq

/-- The count computations of `RMTC._initialize` (rmtc.py lines 59-81), as a
function of the two column counts, the list of training-set row counts, and
the canonicalized `num_elements` option. -/
def initNumCore (nx ny : ℕ) (tRows : List ℕ) (numElements : OptVal ℕ) : Num :=
  let elem_list := numElements.canon nx
  let term_list := List.replicate nx 4
  let uniq_list := elem_list.map (· + 1)
  { x := nx
    y := ny
    elem_list := elem_list
    elem := elem_list.prod
    term_list := term_list
    term := term_list.prod
    uniq_list := uniq_list
    uniq := uniq_list.prod
    t := tRows.sum
    coeff := term_list.prod * elem_list.prod
    support := term_list.prod
    dof := uniq_list.prod * 2 ^ nx }

/-- `RMTC._initialize`: the dimension count is
`training_points[None][0][0].shape[1]`, the output count is
`training_points[None][0][1].shape[1]`, and `num['t']` sums the row counts of
all stored training sets. -/
def initNum (tp : TrainingPoints) (opts : Options) : Num :=
  initNumCore tp.xt.cols tp.yt.cols (tp.xt.rows :: tp.extraRows) opts.num_elements

/-! ### Multi-index enumeration and the row-major flat-index convention -/

/-- All multi-indices below the given per-axis bounds, in lexicographic
(row-major) order.  This is the single enumeration convention shared by the
mesh topology, the local basis transform and the node sharing map. -/
def multiRange : List ℕ → List (List ℕ)
  | [] => [[]]
  | b :: bs => (List.range b).flatMap (fun i => (multiRange bs).map (fun is => i :: is))

/-- Row-major flattening of a multi-index with respect to per-axis bounds
(the last axis varies fastest). -/
def flatIndex : List ℕ → List ℕ → ℕ
  | _ :: bs, i :: is => i * bs.prod + flatIndex bs is
  | _, _ => 0

/-- Row-major unflattening: the inverse of `flatIndex` on valid indices. -/
def unflatten : List ℕ → ℕ → List ℕ
  | [], _ => []
  | _ :: bs, n => n / bs.prod :: unflatten bs (n % bs.prod)

/-! ### Sparse matrices built from triplet lists -/

/-- A scipy sparse matrix: an explicit shape plus an entry function. -/
structure SMatrix where
  rows : ℕ
  cols : ℕ
  entry : ℕ → ℕ → ℚ

/-- Entry `(i, j)` of a `scipy.sparse.csc_matrix((data, (rows, cols)))`
assembled from a triplet list: values of duplicate positions are summed. -/
def cscEntry (ts : List (ℕ × ℕ × ℚ)) (i j : ℕ) : ℚ :=
  ((ts.filter (fun t => decide (t.1 = i ∧ t.2.1 = j))).map (fun t => t.2.2)).sum

/-- Product of two sparse operators (`A * B` in scipy). -/
def SMatrix.mul (A B : SMatrix) : SMatrix :=
  ⟨A.rows, B.cols, fun i j => ((List.range A.cols).map (fun k => A.entry i k * B.entry k j)).sum⟩

/-- Number of structurally nonzero entries in row `i`. -/
def SMatrix.rowNNZ (M : SMatrix) (i : ℕ) : ℕ :=
  ((Finset.range M.cols).filter (fun j => M.entry i j ≠ 0)).card

/-- Number of structurally nonzero entries in column `j`. -/
def SMatrix.colNNZ (M : SMatrix) (j : ℕ) : ℕ :=
  ((Finset.range M.rows).filter (fun i => M.entry i j ≠ 0)).card

/-! ### The node sharing map, local basis transform and dof-to-coeff operator -/

/-- Modelled from the spec: `RMTClib.compute_uniq2elem` is not in the
repository snapshot.  Following section 4.3 of the spec, for every
(element, corner, derivative-subset) triple, a 1 is placed in the row
addressing that element's local nodal slot and in the column addressing the
(shared node, derivative-subset) degree of freedom.  The fixed convention:
rows are row-major over (element, corner, derivative subset), columns
row-major over (node, derivative subset), and the node of a corner is the
element multi-index plus the corner offset. -/
def compute_uniq2elem (el : List ℕ) : List (ℕ × ℕ × ℚ) :=
  let nx := el.length
  let two := List.replicate nx 2
  (multiRange el).flatMap fun ie =>
    (multiRange two).flatMap fun ic =>
      (multiRange two).map fun idv =>
        (flatIndex el ie * 4 ^ nx + (flatIndex two ic * 2 ^ nx + flatIndex two idv),
         flatIndex (el.map (· + 1)) (List.zipWith (· + ·) ie ic) * 2 ^ nx + flatIndex two idv,
         (1 : ℚ))

/-- `full_uniq2elem` (rmtc.py lines 104-110): the csc matrix assembled from
the `compute_uniq2elem` triplets, with shape
`(num_coeff_elem, num_coeff_uniq) = (term*elem, uniq*2**nx)`. -/
def full_uniq2elem (el : List ℕ) : SMatrix :=
  ⟨4 ^ el.length * el.prod, (el.map (· + 1)).prod * 2 ^ el.length,
   cscEntry (compute_uniq2elem el)⟩

/-- Modelled from the spec: `RMTClib.compute_full_from_block` is not in the
repository snapshot.  Following section 4.4 of the spec, `full_nodal2coeff`
is block-diagonal with the same `term x term` block repeated once per
element. -/
def full_from_block (t e : ℕ) (B : ℕ → ℕ → ℚ) : SMatrix :=
  ⟨t * e, t * e, fun i j =>
    if i < t * e ∧ j < t * e ∧ i / t = j / t then B (i % t) (j % t) else 0⟩

/-- Value at `t` of the derivative of order `d` of the 1-D monomial `t^p`. -/
def polyDeriv (d p : ℕ) (t : ℚ) : ℚ :=
  if d ≤ p then (p.descFactorial d : ℚ) * t ^ (p - d) else 0

/-- Tensor product across axes of 1-D cubic factors: corner coordinates `ic`,
derivative-subset indicators `idv`, per-axis monomial powers `ps`. -/
def cornerTensor (ic idv ps : List ℕ) : ℚ :=
  (List.zipWith (fun ci (dp : ℕ × ℕ) => polyDeriv dp.1 dp.2 (ci : ℚ)) ic (idv.zip ps)).prod

/-- Modelled from the spec: `RMTClib.compute_coeff2nodal` is not in the
repository snapshot.  Following section 4.2 of the spec, the `term x term`
matrix maps local tensor-product polynomial coefficients to corner values and
derivatives: the row for a (corner, derivative-subset) pair and the column
for a per-axis power multi-index hold the product over axes of the requested
derivative of `t^p` evaluated at the corner coordinate in {0, 1}.  Rows and
columns follow the same row-major convention as the node sharing map. -/
def compute_coeff2nodal (nx : ℕ) : Matrix (Fin (4 ^ nx)) (Fin (4 ^ nx)) ℚ :=
  Matrix.of fun r c =>
    let two := List.replicate nx 2
    cornerTensor (unflatten two (r.val / 2 ^ nx)) (unflatten two (r.val % 2 ^ nx))
      (unflatten (List.replicate nx 4) c.val)

/-- `np.linalg.inv`: produces the inverse of an invertible matrix and raises
`LinAlgError` (modelled as `none`) on a singular one. -/
def npLinalgInv {n : ℕ} (A : Matrix (Fin n) (Fin n) ℚ) :
    Option (Matrix (Fin n) (Fin n) ℚ) :=
  if A.det = 0 then none else some (A.det⁻¹ • A.adjugate)

/-- View a dense `Fin`-indexed square matrix as an entry function on `ℕ`. -/
def matToFun {n : ℕ} (M : Matrix (Fin n) (Fin n) ℚ) (i j : ℕ) : ℚ :=
  if h : i < n ∧ j < n then M ⟨i, h.1⟩ ⟨j, h.2⟩ else 0

/-- The body of `RMTC._compute_dof2coeff` (rmtc.py lines 89-122) for a given
local basis transform matrix `A`: invert it (fatal, modelled as `none`, when
it is singular), expand the inverse into the block-diagonal
`full_nodal2coeff`, and multiply with the node sharing map
`full_uniq2elem`. -/
def dof2coeffWithBasis (el : List ℕ) (t : ℕ) (A : Matrix (Fin t) (Fin t) ℚ) :
    Option SMatrix :=
  match npLinalgInv A with
  | none => none
  | some B => some ((full_from_block t el.prod (matToFun B)).mul (full_uniq2elem el))

/-- `RMTC._compute_dof2coeff`: inversion and assembly applied to the
computed `coeff2nodal` local basis transform. -/
def compute_dof2coeff (nx : ℕ) (el : List ℕ) : Option SMatrix :=
  dof2coeffWithBasis el (4 ^ nx) (compute_coeff2nodal nx)

/-! ### The basis evaluator (Jacobian) -/

/-- Per-axis derivative order requested by the pair `(ix1, ix2)`: the value 0
requests no derivative and the value `k + 1` one derivative along axis `k`;
an axis named by both components is differentiated twice. -/
def derivOrder (ix1 ix2 k : ℕ) : ℕ :=
  (if ix1 = k + 1 then 1 else 0) + (if ix2 = k + 1 then 1 else 0)

/-- Containing element index along one axis: the query coordinate is mapped
to element units in `[0, e)` and the floor is clamped to a valid element
index, so a point exactly on a shared boundary resolves to the
higher-indexed element, except at the domain's upper boundary. -/
def elemIndexAxis (e : ℕ) (lo hi x : ℚ) : ℕ :=
  (min (max ⌊(x - lo) / (hi - lo) * e⌋ 0) ((e : ℤ) - 1)).toNat

/-- Local coordinate in `[0, 1]` of a coordinate within its element. -/
def localCoord (e : ℕ) (lo hi x : ℚ) : ℚ :=
  (x - lo) / (hi - lo) * e - (elemIndexAxis e lo hi x : ℚ)

/-- Containing element multi-index of a query point. -/
def pointElem (el : List ℕ) (xlimits : List (ℚ × ℚ)) (pt : List ℚ) : List ℕ :=
  List.zipWith (fun (e : ℕ) (lx : (ℚ × ℚ) × ℚ) => elemIndexAxis e lx.1.1 lx.1.2 lx.2)
    el (xlimits.zip pt)

/-- Local coordinates of a query point within its containing element. -/
def pointLocal (el : List ℕ) (xlimits : List (ℚ × ℚ)) (pt : List ℚ) : List ℚ :=
  List.zipWith (fun (e : ℕ) (lx : (ℚ × ℚ) × ℚ) => localCoord e lx.1.1 lx.1.2 lx.2)
    el (xlimits.zip pt)

/-- Value of one local tensor-product basis function (power multi-index `ps`)
under the requested derivative orders, at local coordinates `tloc`. -/
def jacValue (ix1 ix2 : ℕ) (tloc : List ℚ) (ps : List ℕ) : ℚ :=
  (List.zipWith (fun (kp : ℕ × ℕ) (t : ℚ) => polyDeriv (derivOrder ix1 ix2 kp.1) kp.2 t)
    ps.enum tloc).prod

/-- Modelled from the spec: `RMTClib.compute_jac` is not in the repository
snapshot.  Following sections 4.1 and 4.5 of the spec, each query point
contributes one triplet per local basis term: the row is the point's index,
the column is the containing element's coefficient block offset plus the
row-major term index, and the value is the tensor product over axes of the
requested derivative of the 1-D cubic factor at the point's local
coordinate. -/
def compute_jac (ix1 ix2 : ℕ) (el : List ℕ) (xlimits : List (ℚ × ℚ))
    (pts : List (List ℚ)) : List (ℕ × ℕ × ℚ) :=
  let nx := el.length
  pts.enum.flatMap fun q =>
    (multiRange (List.replicate nx 4)).map fun ps =>
      (q.1,
       flatIndex el (pointElem el xlimits q.2) * 4 ^ nx + flatIndex (List.replicate nx 4) ps,
       jacValue ix1 ix2 (pointLocal el xlimits q.2) ps)

/-- `RMTC._compute_jac_raw` (rmtc.py lines 83-87) wrapped as the sparse
`n x (term*elem)` operator of section 4.5 of the spec. -/
def compute_jac_raw (ix1 ix2 : ℕ) (el : List ℕ) (xlimits : List (ℚ × ℚ))
    (pts : List (List ℚ)) : SMatrix :=
  ⟨pts.length, 4 ^ el.length * el.prod, cscEntry (compute_jac ix1 ix2 el xlimits pts)⟩

/-- Apply a sparse operator to a vector of its column space. -/
def SMatrix.apply (M : SMatrix) (v : ℕ → ℚ) (i : ℕ) : ℚ :=
  ((List.range M.cols).map (fun j => M.entry i j * v j)).sum

/-- Number of elements sharing a node: elements having some corner whose node
multi-index equals `node`. -/
def numSharers (el node : List ℕ) : ℕ :=
  (multiRange el).countP (fun ie =>
    (multiRange (List.replicate el.length 2)).any
      (fun ic => List.zipWith (· + ·) ie ic == node))

/-! ### A cubic polynomial and its nodal data, for the round-trip scenario -/

/-- A cubic polynomial with coefficients `a, b, c, d`. -/
def cubic (a b c d x : ℚ) : ℚ := a + b * x + c * x ^ 2 + d * x ^ 3

/-- First derivative of the cubic. -/
def cubicDeriv (a b c d x : ℚ) : ℚ := b + 2 * c * x + 3 * d * x ^ 2

/-- Node positions of the `nx = 1`, `elem_list = [2]`, `xlimits = [[0, 1]]`
grid: nodes at 0, 1/2 and 1. -/
def nodePos (n : ℕ) : ℚ := n / 2

/-- The degree-of-freedom vector holding the cubic's value and first
derivative at each of the three nodes, in node sharing map column order. -/
def dofVec (a b c d : ℚ) (k : ℕ) : ℚ :=
  if k < 6 then
    (if k % 2 = 0 then cubic a b c d (nodePos (k / 2))
     else cubicDeriv a b c d (nodePos (k / 2)))
  else 0

/-- The inverse of the `nx = 1` local basis transform, written out. -/
def nodal2coeffOne : Matrix (Fin 4) (Fin 4) ℚ :=
  Matrix.of ![![1, 0, 0, 0], ![0, 1, 0, 0], ![-3, -2, 3, -1], ![2, 1, -2, 1]]

/-- The `nx = 1` local basis transform with its dimension written as 4. -/
def coeff2nodalOne : Matrix (Fin 4) (Fin 4) ℚ := compute_coeff2nodal 1

/-! ### Properties of the flat-index convention -/

theorem mem_multiRange {bs is : List ℕ} :
    is ∈ multiRange bs ↔ List.Forall₂ (· < ·) is bs := by
  induction bs generalizing is with
  | nil => simp [multiRange, List.forall₂_nil_right_iff]
  | cons b bs ih =>
    simp only [multiRange, List.mem_flatMap, List.mem_map, List.mem_range,
      List.forall₂_cons_right_iff]
    constructor
    · rintro ⟨i, hi, js, hjs, rfl⟩
      exact ⟨i, js, hi, ih.mp hjs, rfl⟩
    · rintro ⟨i, js, hi, hjs, rfl⟩
      exact ⟨i, hi, js, ih.mpr hjs, rfl⟩

theorem range_mul_flatMap (b P : ℕ) :
    List.range (b * P) =
      (List.range b).flatMap (fun i => (List.range P).map (fun n => i * P + n)) := by
  induction b with
  | zero => simp
  | succ b ih =>
    rw [Nat.succ_mul, List.range_add, List.range_succ, List.flatMap_append, ← ih]
    simp

theorem map_flatIndex_multiRange (bs : List ℕ) :
    (multiRange bs).map (flatIndex bs) = List.range bs.prod := by
  induction bs with
  | nil =>
    show [flatIndex [] []] = List.range 1
    rfl
  | cons b bs ih =>
    rw [List.prod_cons, range_mul_flatMap b bs.prod]
    simp only [multiRange, List.map_flatMap, List.map_map]
    congr 1
    funext i
    rw [← ih, List.map_map]
    rfl

theorem flatIndex_append (as bs is js : List ℕ) (h : is.length = as.length) :
    flatIndex (as ++ bs) (is ++ js) = flatIndex as is * bs.prod + flatIndex bs js := by
  induction as generalizing is with
  | nil =>
    rw [List.length_nil, List.length_eq_zero] at h
    subst h
    simp [flatIndex]
  | cons a as ih =>
    cases is with
    | nil => simp at h
    | cons i is =>
      simp only [List.cons_append, flatIndex, List.append_eq]
      rw [List.prod_append, ih is (by simpa using h)]
      ring

theorem multiRange_append (as bs : List ℕ) :
    multiRange (as ++ bs) =
      (multiRange as).flatMap (fun is => (multiRange bs).map (fun js => is ++ js)) := by
  induction as with
  | nil => simp [multiRange]
  | cons a as ih =>
    simp only [List.cons_append, multiRange, List.append_eq]
    rw [ih]
    simp only [List.map_flatMap, List.flatMap_assoc, List.flatMap_map, List.map_map,
      List.cons_append]
    rfl

theorem flatIndex_lt {bs is : List ℕ} (h : List.Forall₂ (· < ·) is bs) :
    flatIndex bs is < bs.prod := by
  induction h with
  | nil => simp [flatIndex]
  | @cons i b is bs hib _ ih =>
    simp only [flatIndex, List.prod_cons]
    calc i * bs.prod + flatIndex bs is < i * bs.prod + bs.prod := by omega
      _ = (i + 1) * bs.prod := by ring
      _ ≤ b * bs.prod := Nat.mul_le_mul_right _ hib

theorem flatIndex_inj {bs is js : List ℕ} (h1 : List.Forall₂ (· < ·) is bs)
    (h2 : List.Forall₂ (· < ·) js bs) (he : flatIndex bs is = flatIndex bs js) :
    is = js := by
  induction h1 generalizing js with
  | nil => exact (List.forall₂_nil_right_iff.mp h2).symm
  | @cons i b is bs hib htail ih =>
    rcases List.forall₂_cons_right_iff.mp h2 with ⟨j, js', hjb, hjs', rfl⟩
    have hP : 0 < bs.prod := by
      have := flatIndex_lt htail
      omega
    simp only [flatIndex] at he
    have hx : flatIndex bs is < bs.prod := flatIndex_lt htail
    have hy : flatIndex bs js' < bs.prod := flatIndex_lt hjs'
    have hij : i = j := by
      have h1' : (i * bs.prod + flatIndex bs is) / bs.prod = i := by
        rw [Nat.mul_comm i, Nat.mul_add_div hP, Nat.div_eq_of_lt hx]
        omega
      have h2' : (j * bs.prod + flatIndex bs js') / bs.prod = j := by
        rw [Nat.mul_comm j, Nat.mul_add_div hP, Nat.div_eq_of_lt hy]
        omega
      rw [← h1', ← h2', he]
    subst hij
    have : flatIndex bs is = flatIndex bs js' := by omega
    rw [ih hjs' this]

theorem flatIndex_surj {bs : List ℕ} {n : ℕ} (h : n < bs.prod) :
    ∃ is, List.Forall₂ (· < ·) is bs ∧ flatIndex bs is = n := by
  have hmem : n ∈ (multiRange bs).map (flatIndex bs) := by
    rw [map_flatIndex_multiRange]
    exact List.mem_range.mpr h
  rcases List.mem_map.mp hmem with ⟨is, his, hflat⟩
  exact ⟨is, mem_multiRange.mp his, hflat⟩

/-! ### Counting helpers for sparse-structure proofs -/

theorem countP_flatMap {α β : Type} (l : List α) (f : α → List β) (p : β → Bool) :
    (l.flatMap f).countP p = (l.map (fun a => (f a).countP p)).sum := by
  induction l with
  | nil => rfl
  | cons a l ih => simp [List.flatMap_cons, List.countP_append, ih]

theorem countP_eq_sum_ite {α : Type} (l : List α) (p : α → Bool) :
    l.countP p = (l.map (fun x => if p x then 1 else 0)).sum := by
  induction l with
  | nil => rfl
  | cons a l ih =>
    by_cases h : p a <;> simp [List.countP_cons, h, ih, Nat.add_comm]

theorem sum_map_add {α : Type} (l : List α) (f g : α → ℕ) :
    (l.map (fun x => f x + g x)).sum = (l.map f).sum + (l.map g).sum := by
  induction l with
  | nil => rfl
  | cons a l ih => simp [ih]; omega

theorem list_sum_comm {α β : Type} (l : List α) (m : List β) (f : α → β → ℕ) :
    (l.map (fun a => (m.map (f a)).sum)).sum =
      (m.map (fun b => (l.map (fun a => f a b)).sum)).sum := by
  induction l with
  | nil => simp
  | cons a l ih =>
    simp only [List.map_cons, List.sum_cons, ih]
    rw [← sum_map_add]

theorem filter_eq_singleton_of_unique {α : Type} {l : List α} {p : α → Bool} {a : α}
    (hnd : l.Nodup) (ha : a ∈ l) (hpa : p a = true)
    (huniq : ∀ b ∈ l, p b = true → b = a) : l.filter p = [a] := by
  induction l with
  | nil => cases ha
  | cons x l ih =>
    rcases List.nodup_cons.mp hnd with ⟨hx, hnd'⟩
    by_cases hpx : p x = true
    · have hxa : x = a := huniq x (List.mem_cons_self _ _) hpx
      subst hxa
      rw [List.filter_cons_of_pos hpx]
      have : l.filter p = [] := by
        rw [List.filter_eq_nil_iff]
        intro b hb hpb
        exact absurd (huniq b (List.mem_cons_of_mem _ hb) hpb ▸ hb) hx
      rw [this]
    · have hax : a ≠ x := fun h => hpx (h ▸ hpa)
      have ha' : a ∈ l := by
        rcases List.mem_cons.mp ha with h | h
        · exact absurd h hax
        · exact h
      rw [List.filter_cons_of_neg (by simpa using hpx)]
      exact ih hnd' ha' (fun b hb hpb => huniq b (List.mem_cons_of_mem _ hb) hpb)

theorem sum_map_all_one {α : Type} {l : List α} {f : α → ℚ}
    (h : ∀ x ∈ l, f x = 1) : (l.map f).sum = (l.length : ℚ) := by
  induction l with
  | nil => simp
  | cons a l ih =>
    simp only [List.map_cons, List.sum_cons, List.length_cons]
    rw [h a (List.mem_cons_self _ _), ih (fun x hx => h x (List.mem_cons_of_mem _ hx))]
    push_cast
    ring

theorem multiRange_nodup (bs : List ℕ) : (multiRange bs).Nodup := by
  have h := map_flatIndex_multiRange bs
  have : ((multiRange bs).map (flatIndex bs)).Nodup := by
    rw [h]; exact List.nodup_range _
  exact this.of_map _

theorem zipWith_add_left_cancel : ∀ {ie ic ic' : List ℕ},
    ic.length = ie.length → ic'.length = ie.length →
    List.zipWith (· + ·) ie ic = List.zipWith (· + ·) ie ic' → ic = ic' := by
  intro ie
  induction ie with
  | nil =>
    intro ic ic' h1 h2 _
    rw [List.length_eq_zero.mp h1, List.length_eq_zero.mp h2]
  | cons i ie ih =>
    intro ic ic' h1 h2 heq
    cases ic with
    | nil => simp at h1
    | cons c ic =>
      cases ic' with
      | nil => simp at h2
      | cons c' ic' =>
        simp only [List.zipWith_cons_cons, List.cons.injEq] at heq
        have : c = c' := by omega
        subst this
        rw [ih (by simpa using h1) (by simpa using h2) heq.2]

theorem zipWith_add_right_cancel : ∀ {ic ie ie' : List ℕ},
    ie.length = ic.length → ie'.length = ic.length →
    List.zipWith (· + ·) ie ic = List.zipWith (· + ·) ie' ic → ie = ie' := by
  intro ic
  induction ic with
  | nil =>
    intro ie ie' h1 h2 _
    rw [List.length_eq_zero.mp h1, List.length_eq_zero.mp h2]
  | cons c ic ih =>
    intro ie ie' h1 h2 heq
    cases ie with
    | nil => simp at h1
    | cons i ie =>
      cases ie' with
      | nil => simp at h2
      | cons i' ie' =>
        simp only [List.zipWith_cons_cons, List.cons.injEq] at heq
        have : i = i' := by omega
        subst this
        rw [ih (by simpa using h1) (by simpa using h2) heq.2]

theorem forall₂_length {is bs : List ℕ} (h : List.Forall₂ (· < ·) is bs) :
    is.length = bs.length := List.Forall₂.length_eq h

theorem corner_node_valid : ∀ {el ie ic : List ℕ},
    List.Forall₂ (· < ·) ie el →
    List.Forall₂ (· < ·) ic (List.replicate el.length 2) →
    List.Forall₂ (· < ·) (List.zipWith (· + ·) ie ic) (el.map (· + 1)) := by
  intro el
  induction el with
  | nil =>
    intro ie ic h1 _
    rw [List.forall₂_nil_right_iff.mp h1]
    simp
  | cons e el ih =>
    intro ie ic h1 h2
    rcases List.forall₂_cons_right_iff.mp h1 with ⟨i, ie', hie, hie', rfl⟩
    rw [List.length_cons, List.replicate_succ] at h2
    rcases List.forall₂_cons_right_iff.mp h2 with ⟨c, ic', hic, hic', rfl⟩
    simp only [List.zipWith_cons_cons, List.map_cons]
    exact List.Forall₂.cons (by omega) (ih hie' hic')

theorem exists_covering : ∀ {el node : List ℕ}, (∀ e ∈ el, 0 < e) →
    List.Forall₂ (· < ·) node (el.map (· + 1)) →
    ∃ ie ic, List.Forall₂ (· < ·) ie el ∧
      List.Forall₂ (· < ·) ic (List.replicate el.length 2) ∧
      List.zipWith (· + ·) ie ic = node := by
  intro el
  induction el with
  | nil =>
    intro node _ h2
    rw [List.map_nil, List.forall₂_nil_right_iff] at h2
    exact ⟨[], [], List.Forall₂.nil, by simp, by simp [h2]⟩
  | cons e el ih =>
    intro node hpos h2
    rw [List.map_cons] at h2
    rcases List.forall₂_cons_right_iff.mp h2 with ⟨n, node', hn, hnode', rfl⟩
    rcases ih (fun x hx => hpos x (List.mem_cons_of_mem _ hx)) hnode' with
      ⟨ie, ic, hie, hic, heq⟩
    have he : 0 < e := hpos e (List.mem_cons_self _ _)
    by_cases hlt : n < e
    · refine ⟨n :: ie, 0 :: ic, List.Forall₂.cons hlt hie, ?_, by simp [heq]⟩
      rw [List.length_cons, List.replicate_succ]
      exact List.Forall₂.cons (by omega) hic
    · have hne : n = e := by omega
      refine ⟨(e - 1) :: ie, 1 :: ic, List.Forall₂.cons (by omega) hie, ?_, ?_⟩
      · rw [List.length_cons, List.replicate_succ]
        exact List.Forall₂.cons (by omega) hic
      · simp only [List.zipWith_cons_cons, heq]
        congr 1
        omega

theorem mixed_radix_lt {a b A B : ℕ} (ha : a < A) (hb : b < B) : a * B + b < A * B :=
  calc a * B + b < a * B + B := by omega
    _ = (a + 1) * B := by ring
    _ ≤ A * B := Nat.mul_le_mul_right _ ha

theorem mixed_radix_inj {a b a' b' B : ℕ} (hb : b < B) (hb' : b' < B)
    (h : a * B + b = a' * B + b') : a = a' ∧ b = b' := by
  have hB : 0 < B := by omega
  have ha : a = a' := by
    have h1 : (a * B + b) / B = a := by
      rw [Nat.mul_comm, Nat.mul_add_div hB, Nat.div_eq_of_lt hb]
      omega
    have h2 : (a' * B + b') / B = a' := by
      rw [Nat.mul_comm, Nat.mul_add_div hB, Nat.div_eq_of_lt hb']
      omega
    rw [← h1, ← h2, h]
  subst ha
  exact ⟨rfl, Nat.add_left_cancel h⟩

/-! ### Structure of the node sharing map -/

theorem mem_compute_uniq2elem {el : List ℕ} {t : ℕ × ℕ × ℚ} :
    t ∈ compute_uniq2elem el ↔
      ∃ ie ic idv,
        List.Forall₂ (· < ·) ie el ∧
        List.Forall₂ (· < ·) ic (List.replicate el.length 2) ∧
        List.Forall₂ (· < ·) idv (List.replicate el.length 2) ∧
        t = (flatIndex el ie * 4 ^ el.length +
              (flatIndex (List.replicate el.length 2) ic * 2 ^ el.length +
               flatIndex (List.replicate el.length 2) idv),
             flatIndex (el.map (· + 1)) (List.zipWith (· + ·) ie ic) * 2 ^ el.length +
               flatIndex (List.replicate el.length 2) idv,
             (1 : ℚ)) := by
  simp only [compute_uniq2elem, List.mem_flatMap, List.mem_map, mem_multiRange]
  constructor
  · rintro ⟨ie, hie, ic, hic, idv, hidv, rfl⟩
    exact ⟨ie, ic, idv, hie, hic, hidv, rfl⟩
  · rintro ⟨ie, ic, idv, hie, hic, hidv, rfl⟩
    exact ⟨ie, hie, ic, hic, idv, hidv, rfl⟩

theorem u2e_map_fst (el : List ℕ) :
    (compute_uniq2elem el).map (fun t => t.1) =
      List.range (4 ^ el.length * el.prod) := by
  have hprod2 : (List.replicate el.length 2).prod = 2 ^ el.length :=
    List.prod_replicate el.length 2
  have h4 : (4 : ℕ) ^ el.length = 2 ^ el.length * 2 ^ el.length := by
    rw [show (4 : ℕ) = 2 * 2 from rfl, Nat.mul_pow]
  have hfull :
      (el ++ (List.replicate el.length 2 ++ List.replicate el.length 2)).prod =
        4 ^ el.length * el.prod := by
    rw [List.prod_append, List.prod_append, hprod2, h4]
    ring
  rw [← hfull, ← map_flatIndex_multiRange, multiRange_append, List.map_flatMap]
  simp only [compute_uniq2elem, List.map_flatMap, List.map_map]
  refine List.flatMap_congr (fun ie hie => ?_)
  have hlie : ie.length = el.length := (mem_multiRange.mp hie).length_eq
  rw [multiRange_append, List.map_flatMap]
  refine List.flatMap_congr (fun ic hic => ?_)
  have hlic : ic.length = el.length := by
    simpa using (mem_multiRange.mp hic).length_eq
  rw [List.map_map]
  refine List.map_congr_left (fun idv hidv => ?_)
  simp only [Function.comp_apply]
  rw [flatIndex_append el (List.replicate el.length 2 ++ List.replicate el.length 2) ie
      (ic ++ idv) hlie,
    flatIndex_append (List.replicate el.length 2) (List.replicate el.length 2) ic idv
      (by simp [hlic]),
    List.prod_append, hprod2, h4]

theorem u2e_length (el : List ℕ) :
    (compute_uniq2elem el).length = 4 ^ el.length * el.prod := by
  have h := congrArg List.length (u2e_map_fst el)
  simpa using h

theorem u2e_row_count (el : List ℕ) (r : ℕ) :
    ((compute_uniq2elem el).filter (fun t => t.1 = r)).length =
      if r < 4 ^ el.length * el.prod then 1 else 0 := by
  have hc : ((compute_uniq2elem el).filter (fun t => t.1 = r)).length =
      ((compute_uniq2elem el).map (fun t => t.1)).countP (fun i => i = r) := by
    rw [List.countP_map, ← List.countP_eq_length_filter]
    rfl
  rw [hc, u2e_map_fst]
  by_cases h : r < 4 ^ el.length * el.prod
  · rw [if_pos h]
    have : (List.range (4 ^ el.length * el.prod)).countP (fun i => i = r) =
        List.count r (List.range (4 ^ el.length * el.prod)) := by
      simp [List.count, BEq.beq]
    rw [this]
    exact List.count_eq_one_of_mem (List.nodup_range _) (List.mem_range.mpr h)
  · rw [if_neg h]
    rw [List.countP_eq_zero]
    intro i hi
    simp only [decide_eq_true_eq]
    intro hir
    exact h (hir ▸ List.mem_range.mp hi)

theorem u2e_row_singleton {el : List ℕ} {r : ℕ} (hr : r < 4 ^ el.length * el.prod) :
    ∃ t, (compute_uniq2elem el).filter (fun s => s.1 = r) = [t] ∧
      t ∈ compute_uniq2elem el ∧ t.1 = r := by
  have h := u2e_row_count el r
  rw [if_pos hr] at h
  rcases List.length_eq_one.mp h with ⟨t, ht⟩
  have htf : t ∈ (compute_uniq2elem el).filter (fun s => s.1 = r) := by
    rw [ht]
    exact List.mem_singleton.mpr rfl
  refine ⟨t, ht, List.mem_of_mem_filter htf, ?_⟩
  have := List.of_mem_filter htf
  simpa using this

theorem u2e_val_one {el : List ℕ} {t : ℕ × ℕ × ℚ} (ht : t ∈ compute_uniq2elem el) :
    t.2.2 = 1 := by
  rcases mem_compute_uniq2elem.mp ht with ⟨ie, ic, idv, _, _, _, rfl⟩
  rfl

theorem u2e_col_lt {el : List ℕ} {t : ℕ × ℕ × ℚ} (ht : t ∈ compute_uniq2elem el) :
    t.2.1 < (el.map (· + 1)).prod * 2 ^ el.length := by
  rcases mem_compute_uniq2elem.mp ht with ⟨ie, ic, idv, hie, hic, hidv, rfl⟩
  have h1 : flatIndex (el.map (· + 1)) (List.zipWith (· + ·) ie ic) <
      (el.map (· + 1)).prod := flatIndex_lt (corner_node_valid hie hic)
  have h2 : flatIndex (List.replicate el.length 2) idv < 2 ^ el.length := by
    have := flatIndex_lt hidv
    rwa [List.prod_replicate] at this
  exact mixed_radix_lt h1 h2

theorem u2e_entry_eq {el : List ℕ} {r : ℕ} {t : ℕ × ℕ × ℚ}
    (ht : (compute_uniq2elem el).filter (fun s => s.1 = r) = [t])
    (hv : t.2.2 = 1) (j : ℕ) :
    cscEntry (compute_uniq2elem el) r j = if j = t.2.1 then 1 else 0 := by
  have hsplit : (compute_uniq2elem el).filter (fun s => decide (s.1 = r ∧ s.2.1 = j)) =
      ((compute_uniq2elem el).filter (fun s => s.1 = r)).filter (fun s => s.2.1 = j) := by
    rw [List.filter_filter]
    apply List.filter_congr
    intro a _
    simp [Bool.and_comm]
  rw [cscEntry, hsplit, ht]
  by_cases hj : j = t.2.1
  · rw [if_pos hj]
    rw [List.filter_cons_of_pos (by simpa using hj.symm)]
    simp [hv]
  · rw [if_neg hj]
    rw [List.filter_cons_of_neg (by simpa using fun h => hj h.symm)]
    simp

theorem u2e_row_structure {el : List ℕ} {r : ℕ} (hr : r < (full_uniq2elem el).rows) :
    (full_uniq2elem el).rowNNZ r = 1 ∧
    ∀ j, (full_uniq2elem el).entry r j ≠ 0 → (full_uniq2elem el).entry r j = 1 := by
  obtain ⟨t, ht, htm, htr⟩ := u2e_row_singleton hr
  have hv := u2e_val_one htm
  have hcol := u2e_col_lt htm
  have hent : ∀ j, (full_uniq2elem el).entry r j = if j = t.2.1 then 1 else 0 :=
    fun j => u2e_entry_eq ht hv j
  constructor
  · have hset : ((Finset.range (full_uniq2elem el).cols).filter
        (fun j => (full_uniq2elem el).entry r j ≠ 0)) = {t.2.1} := by
      ext j
      simp only [Finset.mem_filter, Finset.mem_range, Finset.mem_singleton]
      constructor
      · rintro ⟨_, hne⟩
        by_contra hjne
        rw [hent j, if_neg hjne] at hne
        exact hne rfl
      · rintro rfl
        refine ⟨hcol, ?_⟩
        rw [hent t.2.1, if_pos rfl]
        norm_num
    rw [SMatrix.rowNNZ, hset, Finset.card_singleton]
  · intro j hne
    rw [hent j] at hne ⊢
    by_cases hj : j = t.2.1
    · rw [if_pos hj]
    · rw [if_neg hj] at hne
      exact absurd rfl hne

theorem multiRange_length (bs : List ℕ) : (multiRange bs).length = bs.prod := by
  have h := congrArg List.length (map_flatIndex_multiRange bs)
  simpa using h

theorem countP_le_one_of_unique {α : Type} {l : List α} {p : α → Bool} (hnd : l.Nodup)
    (huniq : ∀ a ∈ l, ∀ b ∈ l, p a = true → p b = true → a = b) : l.countP p ≤ 1 := by
  by_cases h : ∃ a ∈ l, p a = true
  · rcases h with ⟨a, ha, hpa⟩
    rw [List.countP_eq_length_filter,
      filter_eq_singleton_of_unique hnd ha hpa (fun b hb hpb => huniq b hb a ha hpb hpa)]
    exact Nat.le_refl 1
  · push_neg at h
    rw [List.countP_eq_zero.mpr (fun a ha => by simpa using h a ha)]
    exact Nat.zero_le 1

theorem sum_map_le_length {α : Type} (l : List α) (f : α → ℕ)
    (h : ∀ x ∈ l, f x ≤ 1) : (l.map f).sum ≤ l.length := by
  induction l with
  | nil => simp
  | cons a l ih =>
    simp only [List.map_cons, List.sum_cons, List.length_cons]
    have h1 := h a (List.mem_cons_self _ _)
    have h2 := ih (fun x hx => h x (List.mem_cons_of_mem _ hx))
    omega

theorem flatIndex_replicate_lt {n : ℕ} {iv : List ℕ}
    (h : List.Forall₂ (· < ·) iv (List.replicate n 2)) :
    flatIndex (List.replicate n 2) iv < 2 ^ n := by
  have := flatIndex_lt h
  rwa [List.prod_replicate] at this

theorem u2e_col_count_idv {el node dv ie ic : List ℕ}
    (hnode : List.Forall₂ (· < ·) node (el.map (· + 1)))
    (hdv : List.Forall₂ (· < ·) dv (List.replicate el.length 2))
    (hie : List.Forall₂ (· < ·) ie el)
    (hic : List.Forall₂ (· < ·) ic (List.replicate el.length 2)) :
    (multiRange (List.replicate el.length 2)).countP
      (fun idv => decide
        (flatIndex (el.map (· + 1)) (List.zipWith (· + ·) ie ic) * 2 ^ el.length +
            flatIndex (List.replicate el.length 2) idv =
          flatIndex (el.map (· + 1)) node * 2 ^ el.length +
            flatIndex (List.replicate el.length 2) dv)) =
      if List.zipWith (· + ·) ie ic = node then 1 else 0 := by
  have hzn : List.Forall₂ (· < ·) (List.zipWith (· + ·) ie ic) (el.map (· + 1)) :=
    corner_node_valid hie hic
  by_cases h : List.zipWith (· + ·) ie ic = node
  · rw [if_pos h, List.countP_eq_length_filter]
    have hfilter : (multiRange (List.replicate el.length 2)).filter
        (fun idv => decide
          (flatIndex (el.map (· + 1)) (List.zipWith (· + ·) ie ic) * 2 ^ el.length +
              flatIndex (List.replicate el.length 2) idv =
            flatIndex (el.map (· + 1)) node * 2 ^ el.length +
              flatIndex (List.replicate el.length 2) dv)) = [dv] := by
      apply filter_eq_singleton_of_unique (multiRange_nodup _) (mem_multiRange.mpr hdv)
      · simp only [decide_eq_true_eq]
        rw [h]
      · intro b hb hpb
        simp only [decide_eq_true_eq] at hpb
        rw [h] at hpb
        have hfl : flatIndex (List.replicate el.length 2) b =
            flatIndex (List.replicate el.length 2) dv := Nat.add_left_cancel hpb
        exact flatIndex_inj (mem_multiRange.mp hb) hdv hfl
    rw [hfilter]
    rfl
  · rw [if_neg h, List.countP_eq_zero]
    intro idv hidv
    simp only [decide_eq_true_eq]
    intro heq
    have h1 := (mixed_radix_inj (flatIndex_replicate_lt (mem_multiRange.mp hidv))
      (flatIndex_replicate_lt hdv) heq).1
    exact h (flatIndex_inj hzn hnode h1)

theorem u2e_count_ic {el node ie : List ℕ}
    (hie : List.Forall₂ (· < ·) ie el) :
    (multiRange (List.replicate el.length 2)).countP
        (fun ic => List.zipWith (· + ·) ie ic == node) =
      if (multiRange (List.replicate el.length 2)).any
          (fun ic => List.zipWith (· + ·) ie ic == node) = true then 1 else 0 := by
  by_cases h : (multiRange (List.replicate el.length 2)).any
      (fun ic => List.zipWith (· + ·) ie ic == node) = true
  · rw [if_pos h, List.countP_eq_length_filter]
    rcases List.any_eq_true.mp h with ⟨ic₀, hic₀, hic₀p⟩
    have hfilter : (multiRange (List.replicate el.length 2)).filter
        (fun ic => List.zipWith (· + ·) ie ic == node) = [ic₀] := by
      apply filter_eq_singleton_of_unique (multiRange_nodup _) hic₀ hic₀p
      intro b hb hpb
      have hb' : List.zipWith (· + ·) ie b = node := by simpa using hpb
      have hc' : List.zipWith (· + ·) ie ic₀ = node := by simpa using hic₀p
      have hlb : b.length = ie.length := by
        have h1 := (mem_multiRange.mp hb).length_eq
        rw [List.length_replicate] at h1
        rw [h1, (forall₂_length hie)]
      have hlc : ic₀.length = ie.length := by
        have h1 := (mem_multiRange.mp hic₀).length_eq
        rw [List.length_replicate] at h1
        rw [h1, (forall₂_length hie)]
      exact zipWith_add_left_cancel hlb hlc (hb'.trans hc'.symm)
    rw [hfilter]
    rfl
  · rw [if_neg h, List.countP_eq_zero]
    intro ic hic
    by_contra hp
    exact h (List.any_eq_true.mpr ⟨ic, hic, by simpa using hp⟩)

theorem u2e_count_ie {el node ic : List ℕ}
    (hic : List.Forall₂ (· < ·) ic (List.replicate el.length 2)) :
    (multiRange el).countP (fun ie => List.zipWith (· + ·) ie ic == node) ≤ 1 := by
  apply countP_le_one_of_unique (multiRange_nodup _)
  intro a ha b hb hpa hpb
  have ha' : List.zipWith (· + ·) a ic = node := by simpa using hpa
  have hb' : List.zipWith (· + ·) b ic = node := by simpa using hpb
  have hla : a.length = ic.length := by
    have h1 := (mem_multiRange.mp ha).length_eq
    have h2 := (forall₂_length hic)
    rw [List.length_replicate] at h2
    rw [h1, h2]
  have hlb : b.length = ic.length := by
    have h1 := (mem_multiRange.mp hb).length_eq
    have h2 := (forall₂_length hic)
    rw [List.length_replicate] at h2
    rw [h1, h2]
  exact zipWith_add_right_cancel hla hlb (ha'.trans hb'.symm)

theorem u2e_colNNZ_eq_filter (el : List ℕ) (j : ℕ) :
    (full_uniq2elem el).colNNZ j =
      ((compute_uniq2elem el).filter (fun t => decide (t.2.1 = j))).length := by
  have hnodup : (((compute_uniq2elem el).filter (fun t => decide (t.2.1 = j))).map
      (fun t => t.1)).Nodup := by
    have hsub : (((compute_uniq2elem el).filter (fun t => decide (t.2.1 = j))).map
        (fun t => t.1)).Sublist ((compute_uniq2elem el).map (fun t => t.1)) :=
      (List.filter_sublist _).map _
    rw [u2e_map_fst el] at hsub
    exact List.Nodup.sublist hsub (List.nodup_range _)
  have hset : ((Finset.range (full_uniq2elem el).rows).filter
      (fun i => (full_uniq2elem el).entry i j ≠ 0)) =
      (((compute_uniq2elem el).filter (fun t => decide (t.2.1 = j))).map
        (fun t => t.1)).toFinset := by
    ext i
    simp only [Finset.mem_filter, Finset.mem_range, List.mem_toFinset, List.mem_map,
      List.mem_filter, decide_eq_true_eq]
    constructor
    · rintro ⟨hi, hne⟩
      have hi' : i < 4 ^ el.length * el.prod := hi
      obtain ⟨t, ht, htm, htr⟩ := u2e_row_singleton hi'
      have hent : ∀ jj, (full_uniq2elem el).entry i jj = if jj = t.2.1 then 1 else 0 :=
        fun jj => u2e_entry_eq ht (u2e_val_one htm) jj
      have hjt : j = t.2.1 := by
        by_contra hc
        rw [hent j, if_neg hc] at hne
        exact hne rfl
      exact ⟨t, ⟨htm, hjt.symm⟩, htr⟩
    · rintro ⟨t, ⟨htm, htj⟩, rfl⟩
      have hi : t.1 < 4 ^ el.length * el.prod := by
        have hmem : t.1 ∈ (compute_uniq2elem el).map (fun s => s.1) :=
          List.mem_map_of_mem _ htm
        rw [u2e_map_fst el] at hmem
        exact List.mem_range.mp hmem
      refine ⟨hi, ?_⟩
      obtain ⟨t', ht', htm', htr'⟩ := u2e_row_singleton hi
      have htt : t = t' := by
        have hmemf : t ∈ (compute_uniq2elem el).filter (fun s => decide (s.1 = t.1)) :=
          List.mem_filter.mpr ⟨htm, by simp⟩
        rw [ht'] at hmemf
        exact List.mem_singleton.mp hmemf
      have hent := u2e_entry_eq ht' (u2e_val_one htm') j
      have hone : (full_uniq2elem el).entry t.1 j = 1 := by
        show cscEntry (compute_uniq2elem el) t.1 j = 1
        rw [hent, if_pos (by rw [← htt, htj])]
      rw [hone]
      norm_num
  rw [SMatrix.colNNZ, hset, List.toFinset_card_of_nodup hnodup, List.length_map]

theorem u2e_col_filter_length (el node dv : List ℕ)
    (hnode : List.Forall₂ (· < ·) node (el.map (· + 1)))
    (hdv : List.Forall₂ (· < ·) dv (List.replicate el.length 2)) :
    ((compute_uniq2elem el).filter (fun t => decide (t.2.1 =
        flatIndex (el.map (· + 1)) node * 2 ^ el.length +
        flatIndex (List.replicate el.length 2) dv))).length = numSharers el node := by
  rw [← List.countP_eq_length_filter]
  simp only [compute_uniq2elem]
  rw [countP_flatMap]
  simp only [numSharers]
  rw [countP_eq_sum_ite]
  congr 1
  apply List.map_congr_left
  intro ie hie
  rw [← u2e_count_ic (mem_multiRange.mp hie)]
  rw [countP_flatMap, countP_eq_sum_ite]
  congr 1
  apply List.map_congr_left
  intro ic hic
  rw [List.countP_map]
  refine Eq.trans
    (u2e_col_count_idv hnode hdv (mem_multiRange.mp hie) (mem_multiRange.mp hic)) ?_
  by_cases h : List.zipWith (· + ·) ie ic = node <;> simp [h]

theorem numSharers_le (el node : List ℕ) : numSharers el node ≤ 2 ^ el.length := by
  simp only [numSharers]
  rw [countP_eq_sum_ite]
  have h1 : ((multiRange el).map (fun ie =>
      if ((multiRange (List.replicate el.length 2)).any
        (fun ic => List.zipWith (· + ·) ie ic == node)) = true then 1 else 0)).sum =
      ((multiRange el).map (fun ie =>
        (multiRange (List.replicate el.length 2)).countP
          (fun ic => List.zipWith (· + ·) ie ic == node))).sum := by
    congr 1
    apply List.map_congr_left
    intro ie hie
    rw [u2e_count_ic (mem_multiRange.mp hie)]
  rw [h1]
  have h2 : ((multiRange el).map (fun ie =>
      (multiRange (List.replicate el.length 2)).countP
        (fun ic => List.zipWith (· + ·) ie ic == node))).sum =
      ((multiRange (List.replicate el.length 2)).map (fun ic =>
        (multiRange el).countP
          (fun ie => List.zipWith (· + ·) ie ic == node))).sum := by
    have e1 : ((multiRange el).map (fun ie =>
        (multiRange (List.replicate el.length 2)).countP
          (fun ic => List.zipWith (· + ·) ie ic == node))).sum =
        ((multiRange el).map (fun ie =>
          ((multiRange (List.replicate el.length 2)).map (fun ic =>
            if (List.zipWith (· + ·) ie ic == node) = true then 1 else 0)).sum)).sum := by
      congr 1
      apply List.map_congr_left
      intro ie _
      rw [countP_eq_sum_ite]
    have e2 : ((multiRange (List.replicate el.length 2)).map (fun ic =>
        (multiRange el).countP
          (fun ie => List.zipWith (· + ·) ie ic == node))).sum =
        ((multiRange (List.replicate el.length 2)).map (fun ic =>
          ((multiRange el).map (fun ie =>
            if (List.zipWith (· + ·) ie ic == node) = true then 1 else 0)).sum)).sum := by
      congr 1
      apply List.map_congr_left
      intro ic _
      rw [countP_eq_sum_ite]
    rw [e1, e2]
    exact list_sum_comm _ _ _
  rw [h2]
  have h3 := sum_map_le_length (multiRange (List.replicate el.length 2))
    (fun ic => (multiRange el).countP (fun ie => List.zipWith (· + ·) ie ic == node))
    (fun ic hic => u2e_count_ie (mem_multiRange.mp hic))
  calc ((multiRange (List.replicate el.length 2)).map (fun ic =>
      (multiRange el).countP (fun ie => List.zipWith (· + ·) ie ic == node))).sum
      ≤ (multiRange (List.replicate el.length 2)).length := h3
    _ = 2 ^ el.length := by rw [multiRange_length, List.prod_replicate]

theorem numSharers_pos (el node : List ℕ) (hpos : ∀ e ∈ el, 0 < e)
    (hnode : List.Forall₂ (· < ·) node (el.map (· + 1))) :
    0 < numSharers el node := by
  rcases exists_covering hpos hnode with ⟨ie, ic, hie, hic, heq⟩
  simp only [numSharers]
  rw [List.countP_pos_iff]
  refine ⟨ie, mem_multiRange.mpr hie, ?_⟩
  apply List.any_eq_true.mpr
  exact ⟨ic, mem_multiRange.mpr hic, by simpa using heq⟩

/-! ### Claims C1, C9, C10, C8 -/

/-- C1: for every valid configuration (positive `nx`, positive `elem_list`
entries), the counts derived by `_initialize` satisfy `term = 4^nx`,
`uniq = prod (elem_list + 1)`, `dof = uniq * 2^nx`, `coeff = term * elem`
and `support = term`. -/
theorem counts_valid (nx ny : ℕ) (tRows : List ℕ) (el : List ℕ)
    (h1 : 0 < nx) (h2 : el.length = nx) (h3 : ∀ e ∈ el, 0 < e) :
    (initNumCore nx ny tRows (OptVal.arr el)).term = 4 ^ nx ∧
    (initNumCore nx ny tRows (OptVal.arr el)).uniq = (el.map (· + 1)).prod ∧
    (initNumCore nx ny tRows (OptVal.arr el)).dof =
      (initNumCore nx ny tRows (OptVal.arr el)).uniq * 2 ^ nx ∧
    (initNumCore nx ny tRows (OptVal.arr el)).coeff =
      (initNumCore nx ny tRows (OptVal.arr el)).term *
        (initNumCore nx ny tRows (OptVal.arr el)).elem ∧
    (initNumCore nx ny tRows (OptVal.arr el)).support =
      (initNumCore nx ny tRows (OptVal.arr el)).term := by
  simp [initNumCore, OptVal.canon, List.prod_replicate]

/-- Witness for C1 at `nx = 2`, `elem_list = [2, 3]`. -/
theorem counts_valid_witness :
    (0 < 2 ∧ [2, 3].length = 2 ∧ ∀ e ∈ [2, 3], 0 < e) ∧
    ((initNumCore 2 1 [5] (OptVal.arr [2, 3])).term = 4 ^ 2 ∧
     (initNumCore 2 1 [5] (OptVal.arr [2, 3])).uniq = ([2, 3].map (· + 1)).prod ∧
     (initNumCore 2 1 [5] (OptVal.arr [2, 3])).dof =
       (initNumCore 2 1 [5] (OptVal.arr [2, 3])).uniq * 2 ^ 2 ∧
     (initNumCore 2 1 [5] (OptVal.arr [2, 3])).coeff =
       (initNumCore 2 1 [5] (OptVal.arr [2, 3])).term *
         (initNumCore 2 1 [5] (OptVal.arr [2, 3])).elem ∧
     (initNumCore 2 1 [5] (OptVal.arr [2, 3])).support =
       (initNumCore 2 1 [5] (OptVal.arr [2, 3])).term) :=
  ⟨⟨by decide, by decide, by decide⟩,
   counts_valid 2 1 [5] [2, 3] (by decide) (by decide) (by decide)⟩

/-- C9: a scalar `num_elements` (or `smoothness`) option is replicated into a
length-`nx` list, `elem_list` gets one entry per input dimension, and all
subsequent counts are computed from the replicated list. -/
theorem scalar_option_replicated (nx ny v : ℕ) (q : ℚ) (tRows : List ℕ)
    (h : 0 < nx) :
    (OptVal.scalar v).canon nx = List.replicate nx v ∧
    (OptVal.scalar q).canon nx = List.replicate nx q ∧
    ((OptVal.scalar v).canon nx).length = nx ∧
    (initNumCore nx ny tRows (OptVal.scalar v)).elem_list = List.replicate nx v ∧
    initNumCore nx ny tRows (OptVal.scalar v) =
      initNumCore nx ny tRows (OptVal.arr (List.replicate nx v)) := by
  refine ⟨rfl, rfl, by simp [OptVal.canon], by simp [initNumCore, OptVal.canon], rfl⟩

/-- Witness for C9 at `nx = 3`, scalar value 4. -/
theorem scalar_option_replicated_witness :
    0 < 3 ∧
    ((OptVal.scalar 4).canon 3 = List.replicate 3 4 ∧
     (OptVal.scalar (7 : ℚ)).canon 3 = List.replicate 3 (7 : ℚ) ∧
     ((OptVal.scalar 4).canon 3).length = 3 ∧
     (initNumCore 3 2 [9] (OptVal.scalar 4)).elem_list = List.replicate 3 4 ∧
     initNumCore 3 2 [9] (OptVal.scalar 4) =
       initNumCore 3 2 [9] (OptVal.arr (List.replicate 3 4))) :=
  ⟨by decide, scalar_option_replicated 3 2 4 7 [9] (by decide)⟩

/-- C10: the dimension count used by `_initialize` equals the column count of
the stored training inputs, the output count equals the column count of the
training outputs, and the derived counts depend on the training data only
through those shapes. -/
theorem dims_from_training_shape (tp tp' : TrainingPoints) (opts : Options)
    (hx : tp'.xt = tp.xt) (hy : tp'.yt = tp.yt) (he : tp'.extraRows = tp.extraRows) :
    (initNum tp opts).x = tp.xt.cols ∧
    (initNum tp opts).y = tp.yt.cols ∧
    initNum tp opts =
      initNumCore tp.xt.cols tp.yt.cols (tp.xt.rows :: tp.extraRows) opts.num_elements ∧
    initNum tp' opts = initNum tp opts := by
  refine ⟨rfl, rfl, rfl, ?_⟩
  simp [initNum, hx, hy, he]

/-- Witness for C10 at a concrete training-set shape. -/
theorem dims_from_training_shape_witness :
    ((⟨⟨10, 2⟩, ⟨10, 1⟩, [3]⟩ : TrainingPoints).xt = (⟨⟨10, 2⟩, ⟨10, 1⟩, [3]⟩ : TrainingPoints).xt ∧
     (⟨⟨10, 2⟩, ⟨10, 1⟩, [3]⟩ : TrainingPoints).yt = (⟨⟨10, 2⟩, ⟨10, 1⟩, [3]⟩ : TrainingPoints).yt ∧
     (⟨⟨10, 2⟩, ⟨10, 1⟩, [3]⟩ : TrainingPoints).extraRows = (⟨⟨10, 2⟩, ⟨10, 1⟩, [3]⟩ : TrainingPoints).extraRows) ∧
    ((initNum ⟨⟨10, 2⟩, ⟨10, 1⟩, [3]⟩ ⟨OptVal.scalar 4, OptVal.scalar 1⟩).x = 2 ∧
     (initNum ⟨⟨10, 2⟩, ⟨10, 1⟩, [3]⟩ ⟨OptVal.scalar 4, OptVal.scalar 1⟩).y = 1 ∧
     initNum ⟨⟨10, 2⟩, ⟨10, 1⟩, [3]⟩ ⟨OptVal.scalar 4, OptVal.scalar 1⟩ =
       initNumCore 2 1 (10 :: [3]) (OptVal.scalar 4) ∧
     initNum ⟨⟨10, 2⟩, ⟨10, 1⟩, [3]⟩ ⟨OptVal.scalar 4, OptVal.scalar 1⟩ =
       initNum ⟨⟨10, 2⟩, ⟨10, 1⟩, [3]⟩ ⟨OptVal.scalar 4, OptVal.scalar 1⟩) :=
  ⟨⟨rfl, rfl, rfl⟩,
   dims_from_training_shape ⟨⟨10, 2⟩, ⟨10, 1⟩, [3]⟩ ⟨⟨10, 2⟩, ⟨10, 1⟩, [3]⟩
     ⟨OptVal.scalar 4, OptVal.scalar 1⟩ rfl rfl rfl⟩

/-! ### Structure of the basis evaluator -/

theorem sum_range_ite (n K ip : ℕ) :
    ((List.range n).map (fun i => if i = ip then K else 0)).sum =
      if ip < n then K else 0 := by
  induction n with
  | zero => simp
  | succ n ih =>
    rw [List.range_succ, List.map_append, List.sum_append, ih]
    simp only [List.map_cons, List.map_nil, List.sum_cons, List.sum_nil]
    split_ifs <;> omega

theorem elemIndexAxis_lt (e : ℕ) (he : 0 < e) (lo hi x : ℚ) :
    elemIndexAxis e lo hi x < e := by
  rw [elemIndexAxis]
  have h1 := min_le_right (max ⌊(x - lo) / (hi - lo) * (e : ℚ)⌋ 0) ((e : ℤ) - 1)
  omega

theorem pointElem_valid : ∀ {el : List ℕ} {xl : List (ℚ × ℚ)} {pt : List ℚ},
    (∀ e ∈ el, 0 < e) → xl.length = el.length → pt.length = el.length →
    List.Forall₂ (· < ·) (pointElem el xl pt) el := by
  intro el
  induction el with
  | nil =>
    intro xl pt _ _ _
    simp [pointElem]
  | cons e el ih =>
    intro xl pt hpos h1 h2
    cases xl with
    | nil => simp at h1
    | cons lh xl =>
      cases pt with
      | nil => simp at h2
      | cons x pt =>
        simp only [pointElem, List.zip_cons_cons, List.zipWith_cons_cons]
        refine List.Forall₂.cons
          (elemIndexAxis_lt e (hpos e (List.mem_cons_self _ _)) lh.1 lh.2 x) ?_
        exact ih (fun a ha => hpos a (List.mem_cons_of_mem _ ha))
          (by simpa using h1) (by simpa using h2)

theorem mem_compute_jac {ix1 ix2 : ℕ} {el : List ℕ} {xlimits : List (ℚ × ℚ)}
    {pts : List (List ℚ)} {t : ℕ × ℕ × ℚ} :
    t ∈ compute_jac ix1 ix2 el xlimits pts ↔
      ∃ q ∈ pts.enum, ∃ ps, List.Forall₂ (· < ·) ps (List.replicate el.length 4) ∧
        t = (q.1,
          flatIndex el (pointElem el xlimits q.2) * 4 ^ el.length +
            flatIndex (List.replicate el.length 4) ps,
          jacValue ix1 ix2 (pointLocal el xlimits q.2) ps) := by
  simp only [compute_jac, List.mem_flatMap, List.mem_map, mem_multiRange]
  constructor
  · rintro ⟨q, hq, ps, hps, rfl⟩
    exact ⟨q, hq, ps, hps, rfl⟩
  · rintro ⟨q, hq, ps, hps, rfl⟩
    exact ⟨q, hq, ps, hps, rfl⟩

theorem jac_row_count (ix1 ix2 : ℕ) (el : List ℕ) (xlimits : List (ℚ × ℚ))
    (pts : List (List ℚ)) (ip : ℕ) :
    ((compute_jac ix1 ix2 el xlimits pts).filter (fun t => decide (t.1 = ip))).length =
      if ip < pts.length then 4 ^ el.length else 0 := by
  rw [← List.countP_eq_length_filter]
  simp only [compute_jac]
  rw [countP_flatMap]
  have hin : ∀ q ∈ pts.enum,
      (((multiRange (List.replicate el.length 4)).map (fun ps =>
        (q.1,
         flatIndex el (pointElem el xlimits q.2) * 4 ^ el.length +
           flatIndex (List.replicate el.length 4) ps,
         jacValue ix1 ix2 (pointLocal el xlimits q.2) ps))).countP
        (fun t => decide (t.1 = ip))) = if q.1 = ip then 4 ^ el.length else 0 := by
    intro q _
    rw [List.countP_map]
    by_cases h : q.1 = ip
    · rw [if_pos h, List.countP_eq_length.mpr (fun a _ => by simp [h]),
        multiRange_length, List.prod_replicate]
    · rw [if_neg h, List.countP_eq_zero]
      intro a _
      simp [h]
  rw [List.map_congr_left hin]
  have hcomp : (pts.enum.map (fun q : ℕ × List ℚ =>
      if q.1 = ip then 4 ^ el.length else 0)) =
      (pts.enum.map Prod.fst).map (fun i => if i = ip then 4 ^ el.length else 0) := by
    rw [List.map_map]
    rfl
  rw [hcomp, List.enum_map_fst]
  exact sum_range_ite _ _ _

theorem jac_in_block {ix1 ix2 : ℕ} {el : List ℕ} {xlimits : List (ℚ × ℚ)}
    {pts : List (List ℚ)} (hpos : ∀ e ∈ el, 0 < e) (hxl : xlimits.length = el.length)
    (hpts : ∀ pt ∈ pts, pt.length = el.length) {t : ℕ × ℕ × ℚ}
    (ht : t ∈ compute_jac ix1 ix2 el xlimits pts) :
    flatIndex el (pointElem el xlimits (pts.getD t.1 [])) * 4 ^ el.length ≤ t.2.1 ∧
    t.2.1 < flatIndex el (pointElem el xlimits (pts.getD t.1 [])) * 4 ^ el.length +
      4 ^ el.length ∧
    t.2.1 < 4 ^ el.length * el.prod ∧
    flatIndex el (pointElem el xlimits (pts.getD t.1 [])) < el.prod := by
  rcases mem_compute_jac.mp ht with ⟨q, hq, ps, hps, rfl⟩
  dsimp only
  have hqpt : pts.getD q.1 [] = q.2 := by
    rw [List.mk_mem_enum_iff_getElem?] at hq
    rw [List.getD_eq_getD_get?]
    simp [hq]
  rw [hqpt]
  have hpt : q.2 ∈ pts := by
    rw [List.mk_mem_enum_iff_getElem?] at hq
    rcases List.getElem?_eq_some.mp hq with ⟨hlt, hval⟩
    exact hval ▸ List.getElem_mem hlt
  have hflat4 : flatIndex (List.replicate el.length 4) ps < 4 ^ el.length := by
    have := flatIndex_lt hps
    rwa [List.prod_replicate] at this
  have hvalid : List.Forall₂ (· < ·) (pointElem el xlimits q.2) el :=
    pointElem_valid hpos hxl (hpts q.2 hpt)
  have hlt : flatIndex el (pointElem el xlimits q.2) < el.prod := flatIndex_lt hvalid
  have hmix := mixed_radix_lt hlt hflat4
  refine ⟨Nat.le_add_right _ _, by omega, ?_, hlt⟩
  calc flatIndex el (pointElem el xlimits q.2) * 4 ^ el.length +
        flatIndex (List.replicate el.length 4) ps
      < el.prod * 4 ^ el.length := hmix
    _ = 4 ^ el.length * el.prod := Nat.mul_comm _ _

/-- C5: for `n` in-domain query points and any requested derivative pair, the
basis evaluator operator has shape `n x (term*elem)`, its triplet list has
exactly `term` entries for each point's row (total `n*term`), and each of
them addresses a column inside the containing element's coefficient block. -/
theorem basis_evaluator_structure (ix1 ix2 : ℕ) (el : List ℕ)
    (xlimits : List (ℚ × ℚ)) (pts : List (List ℚ))
    (hnx : 0 < el.length) (hpos : ∀ e ∈ el, 0 < e)
    (hxl : xlimits.length = el.length)
    (hlim : ∀ lh ∈ xlimits, lh.1 < lh.2)
    (hpts : ∀ pt ∈ pts, pt.length = el.length ∧
      List.Forall₂ (fun (x : ℚ) (lh : ℚ × ℚ) => lh.1 ≤ x ∧ x ≤ lh.2) pt xlimits) :
    (compute_jac_raw ix1 ix2 el xlimits pts).rows = pts.length ∧
    (compute_jac_raw ix1 ix2 el xlimits pts).cols = 4 ^ el.length * el.prod ∧
    (compute_jac ix1 ix2 el xlimits pts).length = pts.length * 4 ^ el.length ∧
    ∀ ip < pts.length,
      ((compute_jac ix1 ix2 el xlimits pts).filter
        (fun t => decide (t.1 = ip))).length = 4 ^ el.length ∧
      ∀ t ∈ compute_jac ix1 ix2 el xlimits pts, t.1 = ip →
        flatIndex el (pointElem el xlimits (pts.getD ip [])) * 4 ^ el.length ≤ t.2.1 ∧
        t.2.1 < flatIndex el (pointElem el xlimits (pts.getD ip [])) * 4 ^ el.length +
          4 ^ el.length ∧
        t.2.1 < 4 ^ el.length * el.prod := by
  refine ⟨rfl, rfl, ?_, fun ip hip => ⟨?_, fun t ht htr => ?_⟩⟩
  · simp only [compute_jac]
    rw [List.length_flatMap]
    have h1 : ∀ q ∈ pts.enum, (List.length ∘ fun q : ℕ × List ℚ =>
        ((multiRange (List.replicate el.length 4)).map (fun ps =>
          (q.1,
           flatIndex el (pointElem el xlimits q.2) * 4 ^ el.length +
             flatIndex (List.replicate el.length 4) ps,
           jacValue ix1 ix2 (pointLocal el xlimits q.2) ps)))) q = 4 ^ el.length := by
      intro q _
      simp [multiRange_length, List.prod_replicate]
    rw [List.map_congr_left h1]
    have h2 : (pts.enum.map (fun _ => 4 ^ el.length)) =
        List.replicate pts.enum.length (4 ^ el.length) := List.map_const _ _
    rw [h2, List.sum_replicate, List.enum_length, smul_eq_mul]
  · rw [jac_row_count, if_pos hip]
  · have h := jac_in_block hpos hxl (fun pt hpt => (hpts pt hpt).1) ht
    rw [htr] at h
    exact ⟨h.1, h.2.1, h.2.2.1⟩

/-- Witness for C5 at `elem_list = [2]`, `xlimits = [(0, 1)]`, two points. -/
theorem basis_evaluator_structure_witness :
    (0 < [2].length ∧ (∀ e ∈ [2], 0 < e) ∧
      [((0 : ℚ), (1 : ℚ))].length = [2].length ∧
      (∀ lh ∈ [((0 : ℚ), (1 : ℚ))], lh.1 < lh.2) ∧
      (∀ pt ∈ [[(0 : ℚ)], [(1 : ℚ)/2]], pt.length = [2].length ∧
        List.Forall₂ (fun (x : ℚ) (lh : ℚ × ℚ) => lh.1 ≤ x ∧ x ≤ lh.2) pt
          [((0 : ℚ), (1 : ℚ))])) ∧
    ((compute_jac_raw 1 0 [2] [((0 : ℚ), (1 : ℚ))] [[(0 : ℚ)], [(1 : ℚ)/2]]).rows =
        [[(0 : ℚ)], [(1 : ℚ)/2]].length ∧
     (compute_jac_raw 1 0 [2] [((0 : ℚ), (1 : ℚ))] [[(0 : ℚ)], [(1 : ℚ)/2]]).cols =
        4 ^ [2].length * [2].prod ∧
     (compute_jac 1 0 [2] [((0 : ℚ), (1 : ℚ))] [[(0 : ℚ)], [(1 : ℚ)/2]]).length =
        [[(0 : ℚ)], [(1 : ℚ)/2]].length * 4 ^ [2].length ∧
     ∀ ip < [[(0 : ℚ)], [(1 : ℚ)/2]].length,
       ((compute_jac 1 0 [2] [((0 : ℚ), (1 : ℚ))] [[(0 : ℚ)], [(1 : ℚ)/2]]).filter
         (fun t => decide (t.1 = ip))).length = 4 ^ [2].length ∧
       ∀ t ∈ compute_jac 1 0 [2] [((0 : ℚ), (1 : ℚ))] [[(0 : ℚ)], [(1 : ℚ)/2]],
         t.1 = ip →
         flatIndex [2] (pointElem [2] [((0 : ℚ), (1 : ℚ))]
             ([[(0 : ℚ)], [(1 : ℚ)/2]].getD ip [])) * 4 ^ [2].length ≤ t.2.1 ∧
         t.2.1 < flatIndex [2] (pointElem [2] [((0 : ℚ), (1 : ℚ))]
             ([[(0 : ℚ)], [(1 : ℚ)/2]].getD ip [])) * 4 ^ [2].length + 4 ^ [2].length ∧
         t.2.1 < 4 ^ [2].length * [2].prod) :=
  ⟨⟨by decide, by decide, by decide, by norm_num, by norm_num [List.forall₂_cons]⟩,
   basis_evaluator_structure 1 0 [2] [((0 : ℚ), (1 : ℚ))] [[(0 : ℚ)], [(1 : ℚ)/2]]
     (by decide) (by decide) (by decide) (by norm_num)
     (by norm_num [List.forall₂_cons])⟩

theorem elemIndexAxis_boundary (e m : ℕ) (lo hi : ℚ) (hlh : lo < hi)
    (hm0 : 0 < m) (hme : m < e) :
    elemIndexAxis e lo hi (lo + (m / e : ℚ) * (hi - lo)) = m := by
  rw [elemIndexAxis]
  have hne : hi - lo ≠ 0 := sub_ne_zero.mpr (ne_of_gt hlh)
  have he0 : (e : ℚ) ≠ 0 := Nat.cast_ne_zero.mpr (by omega)
  have hu : (lo + (m / e : ℚ) * (hi - lo) - lo) / (hi - lo) * e = (m : ℚ) := by
    field_simp
    ring
  rw [hu, Int.floor_natCast]
  omega

theorem jac_row_nonempty {ix1 ix2 : ℕ} {el : List ℕ} {xlimits : List (ℚ × ℚ)}
    {pts : List (List ℚ)} {ip : ℕ} (hip : ip < pts.length) :
    ∃ t ∈ compute_jac ix1 ix2 el xlimits pts, t.1 = ip := by
  have hcnt := jac_row_count ix1 ix2 el xlimits pts ip
  rw [if_pos hip] at hcnt
  have hpos : 0 < ((compute_jac ix1 ix2 el xlimits pts).filter
      (fun t => decide (t.1 = ip))).length := by
    rw [hcnt]
    positivity
  rcases List.exists_mem_of_length_pos hpos with ⟨t, htf⟩
  exact ⟨t, List.mem_of_mem_filter htf, by simpa using List.of_mem_filter htf⟩

/-- C7: a query point lying exactly on a boundary shared by adjacent elements
is resolved to exactly one containing element: all of its row's entries lie
in a single element's column block, that element is unique, and the per-axis
choice is the deterministic clamped-floor function, which on an interior
boundary node `m` of `e` elements picks element `m` (the higher-indexed
neighbor). -/
theorem boundary_point_resolution (ix1 ix2 : ℕ) (el : List ℕ)
    (xlimits : List (ℚ × ℚ)) (pts : List (List ℚ)) (hnx : 0 < el.length)
    (hpos : ∀ e ∈ el, 0 < e) (hxl : xlimits.length = el.length)
    (hpts : ∀ pt ∈ pts, pt.length = el.length) :
    (∀ e m : ℕ, ∀ lo hi : ℚ, lo < hi → 0 < m → m < e →
      elemIndexAxis e lo hi (lo + (m / e : ℚ) * (hi - lo)) = m) ∧
    ∀ ip < pts.length,
      ∃! c : ℕ, c < el.prod ∧
        ∀ t ∈ compute_jac ix1 ix2 el xlimits pts, t.1 = ip →
          c * 4 ^ el.length ≤ t.2.1 ∧ t.2.1 < (c + 1) * 4 ^ el.length := by
  refine ⟨fun e m lo hi h1 h2 h3 => elemIndexAxis_boundary e m lo hi h1 h2 h3,
    fun ip hip => ?_⟩
  have hT : 0 < 4 ^ el.length := Nat.pos_pow_of_pos _ (by omega)
  refine ⟨flatIndex el (pointElem el xlimits (pts.getD ip [])), ⟨?_, ?_⟩, ?_⟩
  · have hmem : pts.getD ip [] ∈ pts := by
      rw [List.getD_eq_getElem pts [] hip]
      exact List.getElem_mem hip
    exact flatIndex_lt (pointElem_valid hpos hxl (hpts _ hmem))
  · intro t ht htr
    have h := jac_in_block hpos hxl hpts ht
    rw [htr] at h
    refine ⟨h.1, ?_⟩
    have hexp : (flatIndex el (pointElem el xlimits (pts.getD ip [])) + 1) *
        4 ^ el.length =
        flatIndex el (pointElem el xlimits (pts.getD ip [])) * 4 ^ el.length +
          4 ^ el.length := by ring
    omega
  · intro c ⟨hc, hblock⟩
    rcases jac_row_nonempty hip with ⟨t, ht, htr⟩
    have h1 := hblock t ht htr
    have h2 := jac_in_block hpos hxl hpts ht
    rw [htr] at h2
    have e1 : t.2.1 / 4 ^ el.length = c := Nat.div_eq_of_lt_le h1.1 h1.2
    have e2 : t.2.1 / 4 ^ el.length =
        flatIndex el (pointElem el xlimits (pts.getD ip [])) :=
      Nat.div_eq_of_lt_le h2.1
        (by rw [Nat.add_mul, Nat.one_mul]; exact h2.2.1)
    rw [← e1, e2]

/-- Witness for C7 at `elem_list = [2]`, `xlimits = [(0, 1)]`, the boundary
point `1/2`. -/
theorem boundary_point_resolution_witness :
    (0 < [2].length ∧ (∀ e ∈ [2], 0 < e) ∧
      [((0 : ℚ), (1 : ℚ))].length = [2].length ∧
      (∀ pt ∈ [[(1 : ℚ)/2]], pt.length = [2].length)) ∧
    ((∀ e m : ℕ, ∀ lo hi : ℚ, lo < hi → 0 < m → m < e →
       elemIndexAxis e lo hi (lo + (m / e : ℚ) * (hi - lo)) = m) ∧
     ∀ ip < [[(1 : ℚ)/2]].length,
       ∃! c : ℕ, c < [2].prod ∧
         ∀ t ∈ compute_jac 0 0 [2] [((0 : ℚ), (1 : ℚ))] [[(1 : ℚ)/2]], t.1 = ip →
           c * 4 ^ [2].length ≤ t.2.1 ∧ t.2.1 < (c + 1) * 4 ^ [2].length) :=
  ⟨⟨by decide, by decide, by decide, by decide⟩,
   boundary_point_resolution 0 0 [2] [((0 : ℚ), (1 : ℚ))] [[(1 : ℚ)/2]]
     (by decide) (by decide) (by decide) (by decide)⟩

/-! ### Inversion of the local basis transform -/

theorem npLinalgInv_eq_of_right_inv {n : ℕ} {A B : Matrix (Fin n) (Fin n) ℚ}
    (hAB : A * B = 1) : npLinalgInv A = some B := by
  have hdet : IsUnit A.det := Matrix.isUnit_det_of_right_inverse hAB
  have hne : A.det ≠ 0 := hdet.ne_zero
  rw [npLinalgInv, if_neg hne]
  congr 1
  have h1 : A⁻¹ = B := Matrix.inv_eq_right_inv hAB
  rw [← h1, Matrix.inv_def, Ring.inverse_eq_inv]

theorem coeff2nodalOne_eq :
    coeff2nodalOne =
      Matrix.of ![![1, 0, 0, 0], ![0, 1, 0, 0], ![1, 1, 1, 1], ![0, 1, 2, 3]] := by
  ext i j
  fin_cases i <;> fin_cases j <;>
    norm_num [coeff2nodalOne, compute_coeff2nodal, cornerTensor, polyDeriv, unflatten,
      show ((0 : Fin 4) : ℕ) = 0 from rfl, show ((1 : Fin 4) : ℕ) = 1 from rfl,
      show ((2 : Fin 4) : ℕ) = 2 from rfl, show ((3 : Fin 4) : ℕ) = 3 from rfl]

theorem coeff2nodal_one_mul :
    coeff2nodalOne * nodal2coeffOne = 1 := by
  rw [coeff2nodalOne_eq]
  ext i j
  fin_cases i <;> fin_cases j <;>
    simp [Matrix.mul_apply, Fin.sum_univ_four, nodal2coeffOne, Matrix.one_apply,
      Fin.ext_iff] <;>
    norm_num [show ((0 : Fin 4) : ℕ) = 0 from rfl, show ((1 : Fin 4) : ℕ) = 1 from rfl,
      show ((2 : Fin 4) : ℕ) = 2 from rfl, show ((3 : Fin 4) : ℕ) = 3 from rfl]

theorem npLinalgInv_coeff2nodal_one :
    npLinalgInv (compute_coeff2nodal 1) = some nodal2coeffOne :=
  npLinalgInv_eq_of_right_inv coeff2nodal_one_mul

/-- C4: if the local basis transform is singular, construction of the
dof-to-coefficient operator fails fatally and produces no operator; it
succeeds, with an operator, exactly when the matrix is invertible.  The
actual `_compute_dof2coeff` is this construction applied to `coeff2nodal`. -/
theorem dof2coeff_singular_fatal (el : List ℕ) (t : ℕ)
    (A : Matrix (Fin t) (Fin t) ℚ) (nx : ℕ) :
    (dof2coeffWithBasis el t A = none ↔ A.det = 0) ∧
    ((∃ R, dof2coeffWithBasis el t A = some R) ↔ IsUnit A.det) ∧
    compute_dof2coeff nx el = dof2coeffWithBasis el (4 ^ nx) (compute_coeff2nodal nx) := by
  refine ⟨?_, ?_, rfl⟩
  · simp only [dof2coeffWithBasis, npLinalgInv]
    by_cases h : A.det = 0
    · simp [h]
    · simp [h]
  · simp only [dof2coeffWithBasis, npLinalgInv]
    by_cases h : A.det = 0
    · simp [h, not_isUnit_zero]
    · simp [h, isUnit_iff_ne_zero]

/-- C2: the dof-to-coefficient operator equals the product of the
block-diagonal expansion of the inverted local basis transform with the node
sharing map, and its shape is `(term*elem, uniq*2^nx) = (coeff, dof)`. -/
theorem dof2coeff_composition (nx ny : ℕ) (tRows : List ℕ) (el : List ℕ)
    (hnx : 0 < nx) (hlen : el.length = nx) (hpos : ∀ e ∈ el, 0 < e)
    (B : Matrix (Fin (4 ^ nx)) (Fin (4 ^ nx)) ℚ)
    (hB : npLinalgInv (compute_coeff2nodal nx) = some B) :
    compute_dof2coeff nx el =
      some ((full_from_block (4 ^ nx) el.prod (matToFun B)).mul (full_uniq2elem el)) ∧
    ∀ R, compute_dof2coeff nx el = some R →
      R.rows = 4 ^ nx * el.prod ∧
      R.cols = (el.map (· + 1)).prod * 2 ^ nx ∧
      R.rows = (initNumCore nx ny tRows (OptVal.arr el)).coeff ∧
      R.cols = (initNumCore nx ny tRows (OptVal.arr el)).dof := by
  have hmain : compute_dof2coeff nx el =
      some ((full_from_block (4 ^ nx) el.prod (matToFun B)).mul (full_uniq2elem el)) := by
    simp only [compute_dof2coeff, dof2coeffWithBasis, hB]
  refine ⟨hmain, fun R hR => ?_⟩
  rw [hmain] at hR
  have hR' := Option.some.inj hR
  subst hR'
  refine ⟨rfl, ?_, ?_, ?_⟩
  · show (full_uniq2elem el).cols = (el.map (· + 1)).prod * 2 ^ nx
    rw [show (full_uniq2elem el).cols = (el.map (· + 1)).prod * 2 ^ el.length from rfl, hlen]
  · show 4 ^ nx * el.prod = _
    simp [initNumCore, OptVal.canon, List.prod_replicate]
  · show (full_uniq2elem el).cols = _
    rw [show (full_uniq2elem el).cols = (el.map (· + 1)).prod * 2 ^ el.length from rfl, hlen]
    simp [initNumCore, OptVal.canon]

/-- Witness for C2 at `nx = 1`, `elem_list = [2]`. -/
theorem dof2coeff_composition_witness :
    (0 < 1 ∧ [2].length = 1 ∧ (∀ e ∈ [2], 0 < e) ∧
      npLinalgInv (compute_coeff2nodal 1) = some nodal2coeffOne) ∧
    (compute_dof2coeff 1 [2] =
      some ((full_from_block (4 ^ 1) [2].prod (matToFun nodal2coeffOne)).mul
        (full_uniq2elem [2])) ∧
     ∀ R, compute_dof2coeff 1 [2] = some R →
       R.rows = 4 ^ 1 * [2].prod ∧
       R.cols = ([2].map (· + 1)).prod * 2 ^ 1 ∧
       R.rows = (initNumCore 1 1 [7] (OptVal.arr [2])).coeff ∧
       R.cols = (initNumCore 1 1 [7] (OptVal.arr [2])).dof) :=
  ⟨⟨by decide, by decide, by decide, npLinalgInv_coeff2nodal_one⟩,
   dof2coeff_composition 1 1 [7] [2] (by decide) (by decide) (by decide)
     nodal2coeffOne npLinalgInv_coeff2nodal_one⟩

/-- C3: the node sharing map is a sparse `(term*elem) x (uniq*2^nx)` matrix
in which every row holds exactly one nonzero entry, equal to 1, and every
column holds between 1 and `2^nx` nonzero entries, the count equaling the
number of elements sharing that (node, derivative-subset) pair. -/
theorem node_sharing_map_structure (el : List ℕ) (hnx : 0 < el.length)
    (hpos : ∀ e ∈ el, 0 < e) :
    (full_uniq2elem el).rows = 4 ^ el.length * el.prod ∧
    (full_uniq2elem el).cols = (el.map (· + 1)).prod * 2 ^ el.length ∧
    (∀ r < (full_uniq2elem el).rows,
      (full_uniq2elem el).rowNNZ r = 1 ∧
      ∀ j, (full_uniq2elem el).entry r j ≠ 0 → (full_uniq2elem el).entry r j = 1) ∧
    (∀ j < (full_uniq2elem el).cols,
      ∃ node dv, List.Forall₂ (· < ·) node (el.map (· + 1)) ∧
        List.Forall₂ (· < ·) dv (List.replicate el.length 2) ∧
        j = flatIndex (el.map (· + 1)) node * 2 ^ el.length +
            flatIndex (List.replicate el.length 2) dv ∧
        (full_uniq2elem el).colNNZ j = numSharers el node ∧
        1 ≤ (full_uniq2elem el).colNNZ j ∧
        (full_uniq2elem el).colNNZ j ≤ 2 ^ el.length) := by
  refine ⟨rfl, rfl, fun r hr => u2e_row_structure hr, fun j hj => ?_⟩
  have hj' : j < ((el.map (· + 1)) ++ List.replicate el.length 2).prod := by
    rw [List.prod_append, List.prod_replicate]
    exact hj
  rcases flatIndex_surj hj' with ⟨iall, hiall, hflat⟩
  have hnode : List.Forall₂ (· < ·) (iall.take (el.map (· + 1)).length) (el.map (· + 1)) :=
    List.forall₂_take_append iall _ _ hiall
  have hdv : List.Forall₂ (· < ·) (iall.drop (el.map (· + 1)).length)
      (List.replicate el.length 2) := List.forall₂_drop_append iall _ _ hiall
  have hlen : (iall.take (el.map (· + 1)).length).length = (el.map (· + 1)).length :=
    forall₂_length hnode
  have hJ : j = flatIndex (el.map (· + 1)) (iall.take (el.map (· + 1)).length) *
      2 ^ el.length + flatIndex (List.replicate el.length 2)
        (iall.drop (el.map (· + 1)).length) := by
    rw [← hflat]
    conv_lhs => rw [← List.take_append_drop (el.map (· + 1)).length iall]
    rw [flatIndex_append _ _ _ _ hlen, List.prod_replicate]
  have hcolcount : (full_uniq2elem el).colNNZ j = numSharers el
      (iall.take (el.map (· + 1)).length) := by
    rw [u2e_colNNZ_eq_filter, hJ]
    exact u2e_col_filter_length el _ _ hnode hdv
  refine ⟨iall.take (el.map (· + 1)).length, iall.drop (el.map (· + 1)).length,
    hnode, hdv, hJ, hcolcount, ?_, ?_⟩
  · rw [hcolcount]
    exact numSharers_pos el _ hpos hnode
  · rw [hcolcount]
    exact numSharers_le el _

/-- Witness for C3 at `elem_list = [2]`. -/
theorem node_sharing_map_structure_witness :
    (0 < [2].length ∧ ∀ e ∈ [2], 0 < e) ∧
    ((full_uniq2elem [2]).rows = 4 ^ [2].length * [2].prod ∧
     (full_uniq2elem [2]).cols = ([2].map (· + 1)).prod * 2 ^ [2].length ∧
     (∀ r < (full_uniq2elem [2]).rows,
       (full_uniq2elem [2]).rowNNZ r = 1 ∧
       ∀ j, (full_uniq2elem [2]).entry r j ≠ 0 → (full_uniq2elem [2]).entry r j = 1) ∧
     (∀ j < (full_uniq2elem [2]).cols,
       ∃ node dv, List.Forall₂ (· < ·) node ([2].map (· + 1)) ∧
         List.Forall₂ (· < ·) dv (List.replicate [2].length 2) ∧
         j = flatIndex ([2].map (· + 1)) node * 2 ^ [2].length +
             flatIndex (List.replicate [2].length 2) dv ∧
         (full_uniq2elem [2]).colNNZ j = numSharers [2] node ∧
         1 ≤ (full_uniq2elem [2]).colNNZ j ∧
         (full_uniq2elem [2]).colNNZ j ≤ 2 ^ [2].length)) :=
  ⟨⟨by decide, by decide⟩, node_sharing_map_structure [2] (by decide) (by decide)⟩

/-- C8: `_compute_dof2coeff` and `_compute_jac_raw` are deterministic pure
functions of the listed inputs: two invocations on equal grid
configurations, respectively equal `(ix1, ix2, points, elem_list, xlimits)`
inputs, return identical results. -/
theorem operators_deterministic (nx nx' : ℕ) (el el' : List ℕ)
    (ix1 ix1' ix2 ix2' : ℕ) (xl xl' : List (ℚ × ℚ)) (pts pts' : List (List ℚ))
    (h1 : nx = nx') (h2 : el = el') (h3 : ix1 = ix1') (h4 : ix2 = ix2')
    (h5 : xl = xl') (h6 : pts = pts') :
    compute_dof2coeff nx el = compute_dof2coeff nx' el' ∧
    compute_jac_raw ix1 ix2 el xl pts = compute_jac_raw ix1' ix2' el' xl' pts' := by
  subst h1; subst h2; subst h3; subst h4; subst h5; subst h6
  exact ⟨rfl, rfl⟩

/-- Witness for C8 at a concrete configuration. -/
theorem operators_deterministic_witness :
    ((1 : ℕ) = 1 ∧ [2] = [2] ∧ (0 : ℕ) = 0 ∧ (0 : ℕ) = 0 ∧
      [((0 : ℚ), (1 : ℚ))] = [((0 : ℚ), (1 : ℚ))] ∧ [[(0 : ℚ)]] = [[(0 : ℚ)]]) ∧
    (compute_dof2coeff 1 [2] = compute_dof2coeff 1 [2] ∧
     compute_jac_raw 0 0 [2] [((0 : ℚ), (1 : ℚ))] [[(0 : ℚ)]] =
       compute_jac_raw 0 0 [2] [((0 : ℚ), (1 : ℚ))] [[(0 : ℚ)]]) :=
  ⟨⟨rfl, rfl, rfl, rfl, rfl, rfl⟩,
   operators_deterministic 1 1 [2] [2] 0 0 0 0 [((0 : ℚ), (1 : ℚ))] [((0 : ℚ), (1 : ℚ))]
     [[(0 : ℚ)]] [[(0 : ℚ)]] rfl rfl rfl rfl rfl rfl⟩

/-! ### The round-trip scenario -/

theorem jac_list_val : compute_jac 0 0 [2] [((0 : ℚ), (1 : ℚ))] [[0], [1/2], [1]] =
    [(0, 0, 1), (0, 1, 0), (0, 2, 0), (0, 3, 0),
     (1, 4, 1), (1, 5, 0), (1, 6, 0), (1, 7, 0),
     (2, 4, 1), (2, 5, 1), (2, 6, 1), (2, 7, 1)] := by
  simp only [compute_jac, List.enum, List.enumFrom, multiRange, List.range,
    List.range.loop, List.flatMap_cons, List.flatMap_nil, List.map_cons, List.map_nil,
    List.append_nil, List.cons_append, List.nil_append, List.replicate]
  norm_num [pointElem, pointLocal, elemIndexAxis, localCoord, jacValue, derivOrder,
    polyDeriv, flatIndex]

theorem jac_list_der : compute_jac 1 0 [2] [((0 : ℚ), (1 : ℚ))] [[0], [1/2], [1]] =
    [(0, 0, 0), (0, 1, 1), (0, 2, 0), (0, 3, 0),
     (1, 4, 0), (1, 5, 1), (1, 6, 0), (1, 7, 0),
     (2, 4, 0), (2, 5, 1), (2, 6, 2), (2, 7, 3)] := by
  simp only [compute_jac, List.enum, List.enumFrom, multiRange, List.range,
    List.range.loop, List.flatMap_cons, List.flatMap_nil, List.map_cons, List.map_nil,
    List.append_nil, List.cons_append, List.nil_append, List.replicate]
  norm_num [pointElem, pointLocal, elemIndexAxis, localCoord, jacValue, derivOrder,
    polyDeriv, flatIndex]

theorem dof2coeff_one_eq : compute_dof2coeff 1 [2] =
    some ((full_from_block (4 ^ 1) [2].prod (matToFun nodal2coeffOne)).mul
      (full_uniq2elem [2])) := by
  simp [compute_dof2coeff, dof2coeffWithBasis, npLinalgInv_coeff2nodal_one]

set_option maxHeartbeats 2000000 in
/-- C6: round trip on the `nx = 1`, `elem_list = [2]`, `xlimits = [[0, 1]]`
grid: for any cubic, assigning each node's degrees of freedom to the cubic's
value and first derivative, applying the dof-to-coefficient operator, and
evaluating through the basis evaluator at the three node locations with
derivative orders 0 and 1 reproduces the cubic and its derivative exactly. -/
theorem round_trip_cubic (a b c d : ℚ) (D : SMatrix)
    (hD : compute_dof2coeff 1 [2] = some D) :
    ((compute_jac_raw 0 0 [2] [((0 : ℚ), (1 : ℚ))] [[0], [1/2], [1]]).apply
        (D.apply (dofVec a b c d)) 0 = cubic a b c d 0 ∧
     (compute_jac_raw 0 0 [2] [((0 : ℚ), (1 : ℚ))] [[0], [1/2], [1]]).apply
        (D.apply (dofVec a b c d)) 1 = cubic a b c d (1/2) ∧
     (compute_jac_raw 0 0 [2] [((0 : ℚ), (1 : ℚ))] [[0], [1/2], [1]]).apply
        (D.apply (dofVec a b c d)) 2 = cubic a b c d 1) ∧
    ((compute_jac_raw 1 0 [2] [((0 : ℚ), (1 : ℚ))] [[0], [1/2], [1]]).apply
        (D.apply (dofVec a b c d)) 0 = cubicDeriv a b c d 0 ∧
     (compute_jac_raw 1 0 [2] [((0 : ℚ), (1 : ℚ))] [[0], [1/2], [1]]).apply
        (D.apply (dofVec a b c d)) 1 = cubicDeriv a b c d (1/2) ∧
     (compute_jac_raw 1 0 [2] [((0 : ℚ), (1 : ℚ))] [[0], [1/2], [1]]).apply
        (D.apply (dofVec a b c d)) 2 = cubicDeriv a b c d 1) := by
  rw [dof2coeff_one_eq] at hD
  have hDD := Option.some.inj hD
  subst hDD
  refine ⟨⟨?_, ?_, ?_⟩, ?_, ?_, ?_⟩ <;>
    (norm_num [SMatrix.apply, SMatrix.mul, compute_jac_raw, jac_list_val, jac_list_der,
      full_from_block, full_uniq2elem, cscEntry, matToFun, nodal2coeffOne, dofVec,
      cubic, cubicDeriv, nodePos, List.range, List.range.loop, List.filter,
      compute_uniq2elem, multiRange, flatIndex, List.replicate]
     try ring)

/-- Witness for C6 at the cubic with coefficients 1, 2, 3, 4. -/
theorem round_trip_cubic_witness :
    compute_dof2coeff 1 [2] =
      some ((full_from_block (4 ^ 1) [2].prod (matToFun nodal2coeffOne)).mul
        (full_uniq2elem [2])) ∧
    (((compute_jac_raw 0 0 [2] [((0 : ℚ), (1 : ℚ))] [[0], [1/2], [1]]).apply
        (((full_from_block (4 ^ 1) [2].prod (matToFun nodal2coeffOne)).mul
          (full_uniq2elem [2])).apply (dofVec 1 2 3 4)) 0 = cubic 1 2 3 4 0 ∧
      (compute_jac_raw 0 0 [2] [((0 : ℚ), (1 : ℚ))] [[0], [1/2], [1]]).apply
        (((full_from_block (4 ^ 1) [2].prod (matToFun nodal2coeffOne)).mul
          (full_uniq2elem [2])).apply (dofVec 1 2 3 4)) 1 = cubic 1 2 3 4 (1/2) ∧
      (compute_jac_raw 0 0 [2] [((0 : ℚ), (1 : ℚ))] [[0], [1/2], [1]]).apply
        (((full_from_block (4 ^ 1) [2].prod (matToFun nodal2coeffOne)).mul
          (full_uniq2elem [2])).apply (dofVec 1 2 3 4)) 2 = cubic 1 2 3 4 1) ∧
     ((compute_jac_raw 1 0 [2] [((0 : ℚ), (1 : ℚ))] [[0], [1/2], [1]]).apply
        (((full_from_block (4 ^ 1) [2].prod (matToFun nodal2coeffOne)).mul
          (full_uniq2elem [2])).apply (dofVec 1 2 3 4)) 0 = cubicDeriv 1 2 3 4 0 ∧
      (compute_jac_raw 1 0 [2] [((0 : ℚ), (1 : ℚ))] [[0], [1/2], [1]]).apply
        (((full_from_block (4 ^ 1) [2].prod (matToFun nodal2coeffOne)).mul
          (full_uniq2elem [2])).apply (dofVec 1 2 3 4)) 1 = cubicDeriv 1 2 3 4 (1/2) ∧
      (compute_jac_raw 1 0 [2] [((0 : ℚ), (1 : ℚ))] [[0], [1/2], [1]]).apply
        (((full_from_block (4 ^ 1) [2].prod (matToFun nodal2coeffOne)).mul
          (full_uniq2elem [2])).apply (dofVec 1 2 3 4)) 2 = cubicDeriv 1 2 3 4 1)) :=
  ⟨dof2coeff_one_eq, round_trip_cubic 1 2 3 4 _ dof2coeff_one_eq⟩

end RMTC